import Mathlib

/-!
Verification of the ball-cover graph construction and simplification pipeline
of `src/backend/app.py` (SAEExploration backend).

The Python functions are shallowly embedded as Lean functions:

* `compute_cosine_distance_matrix` — the cosine distance matrix builder.
  Real arithmetic is modelled over explicit fractions (`Q`); square roots
  are taken with a natural square root on numerator and denominator
  (`qSqrt`), which is exact on the perfect-square inputs used by the
  concrete witnesses below.  NumPy's NaN propagation on a zero-norm row is
  modelled by the division-by-zero convention `x / 0 = 0`: in both
  semantics the function returns a matrix and raises no error for a
  zero-norm vector.
* `elbow_eps` — the radius ("epsilon") selector.  The parts delegated to
  the external sklearn/kneed libraries are modelled from the spec
  (see the doc comment of `elbow_eps`).
* `BallMapper` — the external pyballmapper library call; modelled from the
  spec's greedy ball-cover construction (see `ballCover`).
* `postprocess_ballmapper` — the graph simplifier, embedded in full.
  Python dictionaries keep insertion order, so the node dictionary is a
  `List NodeData` in insertion order; the adjacency `defaultdict(set)` is a
  `Finset (Nat × Nat)` of directed pairs (a missing key and a key mapped to
  an empty set are indistinguishable to the Python code, and all the
  mutation steps of one rewiring loop commute, so the set-level description
  is exact).  Iteration over a Python set of small ints is modelled as
  ascending order.  The `KeyError` that the final edge reconstruction can
  raise is modelled by an `Option` result.
* `get_ballmapper` — the request handler's computation core (from the
  distance-matrix computation to the returned payload), embedded as
  `get_ballmapper_core` returning `Except`.
-/

namespace SAEExploration

/-- One per-point metadata record attached to a covered point
(`node['saes']` entries in the Python code); `index` is the SAE index the
code dedups on, `info` stands for the rest of the record. -/
structure Sae where
  index : Nat
  info : Nat
deriving DecidableEq, Repr

/-- A node of the ball-mapper graph as kept in `node_dict`:
`{'id': .., 'saes': .., 'sae_indices': set(..), 'sae_count': ..}`. -/
structure NodeData where
  id : Nat
  saes : List Sae
  sae_indices : Finset Nat
  sae_count : Nat
deriving DecidableEq

/-- An edge record `{'source': .., 'target': .., 'common_saes': ..}`. -/
structure Edge where
  source : Nat
  target : Nat
  common_saes : Finset Nat
deriving DecidableEq

/-- The node dictionary: a Python dict keyed by node id, in insertion
order.  The code never inserts new keys, so a list of entries models it. -/
abbrev NodeDict := List NodeData

/-- The adjacency `defaultdict(set)`, as the set of directed pairs
`(i, j)` with `j ∈ adjacency[i]`. -/
abbrev Adj := Finset (Nat × Nat)

/-- `node_dict[i]` as a partial lookup. -/
def lookup (d : NodeDict) (i : Nat) : Option NodeData :=
  d.find? (fun x => x.id = i)

/-- `node_dict[i]['sae_indices']`, defaulting to `∅` for a missing key. -/
def indicesOf (d : NodeDict) (i : Nat) : Finset Nat :=
  (lookup d i).elim ∅ (·.sae_indices)

/-- `adjacency[i]` (empty for a missing key, as with `defaultdict(set)`). -/
def nbrs (A : Adj) (i : Nat) : Finset Nat :=
  (A.filter (fun p => p.1 = i)).image Prod.snd

/-- The adjacency built from the edge list (lines 102–106):
for each edge both directions are inserted; insertion order is irrelevant
to the resulting set. -/
def buildAdj (es : Finset Edge) : Adj :=
  es.biUnion (fun e => {(e.source, e.target), (e.target, e.source)})

/-- The elements of a `Finset Nat` in ascending order (the model of
iteration over a Python set of small ints).  Defined by lifting
`insertionSort` so that it reduces definitionally on concrete inputs. -/
def finsetAsc (s : Finset Nat) : List Nat :=
  Quot.liftOn s.val (fun l => l.insertionSort (· ≤ ·))
    (fun a b h => List.eq_of_perm_of_sorted
      (((a.perm_insertionSort (· ≤ ·)).trans h).trans (b.perm_insertionSort (· ≤ ·)).symm)
      (List.sorted_insertionSort (· ≤ ·) a) (List.sorted_insertionSort (· ≤ ·) b))

/-- The neighbor test of the scan loop (lines 128–133): a neighbor id `j`
passes if it is still in `node_dict` and its covered set contains `s`. -/
def supPred (d : NodeDict) (s : Finset Nat) (j : Nat) : Bool :=
  match lookup d j with
  | some td => decide (s ⊆ td.sae_indices)
  | none => false

/-- One scheduling pass of the merge loop (lines 116–137): scan the node
dictionary in insertion order; for each node record `(node_id, neighbor)`
for the first current neighbor whose covered set contains the node's.
No merge is applied during the scan, so all checks use pass-start data.
(The `if node_id not in node_dict` guard at line 120 can never fire during
the scan, because `node_dict` is only mutated after it.) -/
def collectMerges (d : NodeDict) (A : Adj) : List (Nat × Nat) :=
  (d.map (fun nd =>
    match (finsetAsc (nbrs A nd.id)).find? (supPred d nd.sae_indices) with
    | some t => [(nd.id, t)]
    | none => [])).flatten

/-- The `saes` merge of lines 146–150: append the merged node's metadata
entries whose `index` is not already present, updating the seen-index set
as entries are appended. -/
def mergeSaes (tgt : List Sae) (src : List Sae) : List Sae :=
  src.foldl (fun acc s =>
    if acc.any (fun s2 => s2.index = s.index) then acc else acc ++ [s]) tgt

/-- The adjacency rewiring of lines 153–162 for merging `n` into `t`:
for every neighbor `x ≠ t` of `n`, discard `(x, n)`, add `(x, t)` and
`(t, x)`; then `adjacency.pop(n)` drops every pair with first component
`n`.  Note that `n` is *not* discarded from `adjacency[t]`: a pair
`(t, n)` present in `A` survives (this is the stale entry that later makes
edge reconstruction fail). -/
def rewire (A : Adj) (n t : Nat) : Adj :=
  let xs := (nbrs A n).erase t
  ((A \ xs.image (fun x => (x, n))) ∪ xs.image (fun x => (x, t))
      ∪ xs.image (fun x => (t, x))).filter (fun p => p.1 ≠ n)

/-- The node-dictionary update of lines 144–151, merging the data of node
`nd` into the entry with id `t` (whose pre-merge data is `td`): union the
covered sets, append the unseen metadata entries, recompute the count. -/
def updFun (nd td : NodeData) (t : Nat) (x : NodeData) : NodeData :=
  if x.id = t then
    { x with saes := mergeSaes td.saes nd.saes,
             sae_indices := td.sae_indices ∪ nd.sae_indices,
             sae_count := (td.sae_indices ∪ nd.sae_indices).card }
  else x

/-- One entry of the merge-performing loop (lines 140–162).  The guard
`if node_id in node_dict and target_id in node_dict` skips a pair whose
node or target was removed by an earlier merge of the same pass. -/
def applyMerge (st : NodeDict × Adj) (p : Nat × Nat) : NodeDict × Adj :=
  match lookup st.1 p.1, lookup st.1 p.2 with
  | some nd, some td =>
    ((st.1.map (updFun nd td p.2)).filter (fun x => x.id ≠ p.1), rewire st.2 p.1 p.2)
  | _, _ => st

/-- The `while merged:` loop (lines 109–163): schedule a full pass, stop
if nothing was scheduled, otherwise perform the scheduled merges in order
and repeat.  The Python loop is unbounded; each non-empty pass removes at
least one node (proved below), so `nodes.length + 1` units of fuel are
enough to reach the fixpoint. -/
def mergePasses : Nat → NodeDict → Adj → NodeDict × Adj
  | 0, d, A => (d, A)
  | fuel + 1, d, A =>
    let ms := collectMerges d A
    if ms.isEmpty then (d, A)
    else
      let st := ms.foldl applyMerge (d, A)
      mergePasses fuel st.1 st.2

/-- The final edge reconstruction (lines 192–209): for every adjacency
pair `(i, j)` with `i < j`, look both endpoints up in `node_dict` and emit
an edge carrying the intersection of their covered sets.  A lookup of an
id no longer in `node_dict` raises `KeyError` in Python; this is the
`none` result.  (The `edge_set` dedup of the code is redundant: each
unordered pair is visited at most once.) -/
def buildFinalEdges (d : NodeDict) (A : Adj) : Option (Finset Edge) :=
  let pairs := A.filter (fun p => p.1 < p.2)
  if _h : ∀ p ∈ pairs, (lookup d p.1).isSome ∧ (lookup d p.2).isSome then
    some (pairs.image (fun p => ⟨p.1, p.2, indicesOf d p.1 ∩ indicesOf d p.2⟩))
  else none

/-- `postprocess_ballmapper` (lines 79–212).  Input nodes are already in
dictionary form (the `set(node['sae_indices'])` conversion of line 98 is
the identity on the `Finset` representation); the "remove small nodes"
step 2 is disabled in the source (`nodes_to_remove` is always empty). -/
def postprocess_ballmapper (nodes : List NodeData) (edges : Finset Edge) :
    Option (List NodeData × Finset Edge) :=
  let st := mergePasses (nodes.length + 1) nodes (buildAdj edges)
  match buildFinalEdges st.1 st.2 with
  | some es => some (st.1, es)
  | none => none

/-- The raw edge construction of `get_ballmapper` (lines 1018–1029): for
every pair of nodes, in list order, an edge with the (nonempty)
intersection of their covered sets. -/
def listPairs {α : Type} : List α → List (α × α)
  | [] => []
  | x :: xs => xs.map (fun y => (x, y)) ++ listPairs xs

/-- See `listPairs`; this is the `for node1, node2 in combinations(nodes, 2)`
loop building the raw edges. -/
def makeEdges (nodes : List NodeData) : Finset Edge :=
  ((listPairs nodes).filterMap (fun q =>
    if (q.1.sae_indices ∩ q.2.sae_indices).Nonempty then
      some ⟨q.1.id, q.2.id, q.1.sae_indices ∩ q.2.sae_indices⟩
    else none)).toFinset

/-! ## The numerical pipeline feeding the simplifier -/

/-- The tagged error kinds of the spec's §7 (`insufficientData`,
`degenerateVector`, `invalidParameter`, `notFound`) together with the
untagged Python exceptions the source can actually raise:
`keyError` (final edge reconstruction on a stale adjacency entry),
`valueError` (`distance_matrix.min()` reduction over an empty matrix in
the debug print), and `emptyFilter` (the zero-SAE early return of line
939, itself referencing an undefined name). -/
inductive PipelineError where
  | insufficientData
  | degenerateVector
  | invalidParameter
  | notFound
  | keyError
  | valueError
  | emptyFilter
deriving DecidableEq, Repr

/-- Rational numbers as explicit fractions — an integer numerator over a
positive natural denominator, without gcd normalization — so that every
arithmetic operation reduces definitionally in the kernel.  This models
the real (floating-point) arithmetic of the source.  Division by zero
yields `0`, standing in for NumPy's NaN: in both semantics the operation
returns a value and raises no error. -/
structure Q where
  num : Int
  den : Nat
deriving DecidableEq, Repr

instance (n : Nat) : OfNat Q n := ⟨⟨n, 1⟩⟩

instance : NatCast Q := ⟨fun n => ⟨n, 1⟩⟩

instance : IntCast Q := ⟨fun n => ⟨n, 1⟩⟩

instance : Add Q := ⟨fun x y => ⟨x.num * y.den + y.num * x.den, x.den * y.den⟩⟩

instance : Sub Q := ⟨fun x y => ⟨x.num * y.den - y.num * x.den, x.den * y.den⟩⟩

instance : Mul Q := ⟨fun x y => ⟨x.num * y.num, x.den * y.den⟩⟩

instance : Div Q :=
  ⟨fun x y =>
    if y.num = 0 then ⟨0, 1⟩
    else ⟨x.num * y.den * y.num.sign, x.den * y.num.natAbs⟩⟩

instance : LE Q := ⟨fun x y => x.num * (y.den : Int) ≤ y.num * (x.den : Int)⟩

instance : LT Q := ⟨fun x y => x.num * (y.den : Int) < y.num * (x.den : Int)⟩

instance (x y : Q) : Decidable (x ≤ y) :=
  inferInstanceAs (Decidable (x.num * (y.den : Int) ≤ y.num * (x.den : Int)))

instance (x y : Q) : Decidable (x < y) :=
  inferInstanceAs (Decidable (x.num * (y.den : Int) < y.num * (x.den : Int)))

/-- `⌊x⌋` for a fraction with positive denominator. -/
def Q.floor (x : Q) : Int := Int.fdiv x.num x.den

/-- Natural square root by bounded search (kernel-reducible; the inputs
used here are tiny). -/
def natSqrtB (n : Nat) : Nat :=
  (List.range (n + 1)).foldl (fun acc k => if k * k ≤ n then k else acc) 0

/-- Dot product of two vectors. -/
def dotQ (u v : List Q) : Q := (List.zipWith (· * ·) u v).sum

/-- Square root over `Q`, via `natSqrtB` on numerator and denominator;
exact on perfect squares (all the concrete inputs below), a rounding
stand-in for floating point elsewhere. -/
def qSqrt (q : Q) : Q := (natSqrtB q.num.toNat : Q) / (natSqrtB q.den : Q)

/-- Row normalization of line 52: `v / np.linalg.norm(v)`.  For a
zero-norm row NumPy emits NaN entries and continues; the model maps them
to `0` by the division-by-zero convention — in both semantics no error is
raised. -/
def normalizeVec (v : List Q) : List Q := v.map (· / qSqrt (dotQ v v))

/-- `np.clip(x, 0, 2)` of line 58. -/
def clip02 (x : Q) : Q := if x < 0 then 0 else if 2 < x then 2 else x

/-- `compute_cosine_distance_matrix` (lines 49–60): normalize rows,
pairwise dot products, distance `1 - sim` clipped to `[0, 2]`.  The
function performs no input validation; its only failure is the
`ValueError` raised by `distance_matrix.min()` in the debug print of
line 59 when the input is empty. -/
def compute_cosine_distance_matrix (embeddings : List (List Q)) :
    Except PipelineError (List (List Q)) :=
  let ns := embeddings.map normalizeVec
  let m := ns.map (fun u => ns.map (fun w => clip02 (1 - dotQ u w)))
  if embeddings.isEmpty then .error .valueError else .ok m

/-- Cosine distance of the sklearn metric: `1 - u·v / (‖u‖ ‖v‖)`. -/
def cosDist (u v : List Q) : Q :=
  1 - dotQ u v / (qSqrt (dotQ u u) * qSqrt (dotQ v v))

/-- For every point, the distance to its 2nd nearest neighbor counting the
point itself (sklearn's `kneighbors` with `n_neighbors=2` returns the two
smallest row entries including self; line 68 takes column `1`). -/
def kthNNDists (data : List (List Q)) : List Q :=
  data.map (fun u => ((data.map (cosDist u)).insertionSort (· ≤ ·)).getD 1 0)

/-- Modelled from the spec: the knee location performed by the external
`kneed.KneeLocator(curve='convex', direction='increasing')` call, which is
not part of this repository.  Per §4.2 of the spec: min-max normalize both
axes of the sorted curve and take the (first) point of maximum deviation
below the straight line joining the endpoints (which is `y = x` after
normalization). -/
def kneeIndex (ys : List Q) : Nat :=
  let n := ys.length
  let ymin := ys.foldr (fun a b => if a ≤ b then a else b) (ys.getD 0 0)
  let ymax := ys.foldr (fun a b => if b ≤ a then a else b) (ys.getD 0 0)
  let dev : Nat → Q := fun i =>
    (i : Q) / ((n : Q) - 1) - (ys.getD i 0 - ymin) / (ymax - ymin)
  (List.range n).foldl (fun best i => if dev best < dev i then i else best) 0

/-- `elbow_eps` (lines 62–77).  The passed `n_neighbors` is discarded and
overwritten with `2` (line 64).  Modelled from the spec for the library
parts: per §4.2 it fails with `InsufficientData` when fewer than `k+1 = 3`
points are supplied (sklearn raises for fewer than 2 samples and
`int(kneedle.knee_y*100)` raises `TypeError` when no knee exists on a
2-point curve).  The knee's y-value is truncated to two decimals
(`int(y*100)/100`, line 76; y-values are nonnegative distances, so
truncation is `⌊·⌋`). -/
def elbow_eps (data : List (List Q)) (n_neighbors : Nat) :
    Except PipelineError (Q × List Q) :=
  let _k := n_neighbors
  if data.length < 3 then .error .insufficientData
  else
    let kd := kthNNDists data
    let sorted := kd.insertionSort (· ≤ ·)
    let y := sorted.getD (kneeIndex sorted) 0
    .ok (((Q.floor (y * 100) : Int) : Q) / 100, kd)

/-- The `max_size` request-parameter handling of lines 834–839: absent or
malformed values default to `3`; a parsed value below `1` is clamped to
`1` (it is not rejected). -/
def parse_max_size : Option Int → Int
  | none => 3
  | some m => if m < 1 then 1 else m

/-- An input point: its SAE `index`, its remaining metadata (`info`), and
its feature vector. -/
structure PointRec where
  index : Nat
  info : Nat
  vec : List Q
deriving DecidableEq, Repr

/-- Default for out-of-range list indexing (never reached on the valid
positions produced by `ballCover`). -/
def defaultRec : PointRec := ⟨0, 0, []⟩

/-- The candidate points covered by a new landmark `lm`: every point
within distance `eps` whose current coverage count is below the cap. -/
def coverPts (D : List (List Q)) (eps : Q) (M : Int) (counts : List Nat)
    (lm : Nat) : List Nat :=
  (List.range counts.length).filter
    (fun j => decide ((D.getD lm []).getD j 0 ≤ eps ∧ (counts.getD j 0 : Int) < M))

/-- Increment the coverage count of each newly covered point. -/
def bumpCounts (counts : List Nat) (pts : List Nat) : List Nat :=
  counts.mapIdx (fun j c => if j ∈ pts then c + 1 else c)

/-- Modelled from the spec: the greedy landmark loop of §4.3.  The source
delegates ball-cover construction to the external
`pyballmapper.BallMapper(metric="precomputed", method="adaptive", eta=0.9)`
call, whose code is not part of this repository; the spec substitutes this
fully specified deterministic construction.  Pick the first point with
coverage count zero, promote it to a landmark, cover every point within
`eps` whose count is below the cap, and repeat.  The construction
presupposes `eps ≥ 0`, so that a landmark covers itself; otherwise the
loop cannot progress and the model stops. -/
def ballCoverAux (D : List (List Q)) (eps : Q) (M : Int) :
    Nat → List Nat → List (Nat × List Nat)
  | 0, _ => []
  | fuel + 1, counts =>
    match counts.findIdx? (· = 0) with
    | none => []
    | some lm =>
      let pts := coverPts D eps M counts lm
      if lm ∈ pts then (lm, pts) :: ballCoverAux D eps M fuel (bumpCounts counts pts)
      else []

/-- See `ballCoverAux`: the full cover of the `D.length` points. -/
def ballCover (D : List (List Q)) (eps : Q) (M : Int) : List (Nat × List Nat) :=
  ballCoverAux D eps M D.length (List.replicate D.length 0)

/-- The node construction of lines 1003–1016: node id is the landmark,
`saes` the metadata records of the covered points, `sae_indices` their
original SAE indices, `sae_count` the number of covered points. -/
def buildNodes (mnodes : List (Nat × List Nat)) (recs : List PointRec) :
    List NodeData :=
  mnodes.map (fun q =>
    { id := q.1,
      saes := q.2.map (fun p => ⟨(recs.getD p defaultRec).index, (recs.getD p defaultRec).info⟩),
      sae_indices := (q.2.map (fun p => (recs.getD p defaultRec).index)).toFinset,
      sae_count := q.2.length })

/-- The payload returned by `get_ballmapper` (lines 1035–1045), restricted
to the fields the claims are about. -/
structure BMResult where
  nodes : List NodeData
  edges : Finset Edge
  total_saes : Nat
  original_nodes : Nat
  original_edges : Nat
  computed_epsilon : Option Q
  used_epsilon : Q
deriving DecidableEq

/-- The computation core of the `get_ballmapper` request handler (lines
939–1045), from the zero-SAE guard to the returned payload.  `allRecs`
are the threshold-filtered records, `filteredRecs` the additionally
category-filtered ones (they coincide when no category filter is given).
Note the order of operations, exactly as in the source: the distance
matrix (line 970) and `elbow_eps` (line 971) are computed *before* the
`custom_epsilon` override is examined (line 975); `computed_epsilon` is
reported only when no override was supplied (line 1043). -/
def get_ballmapper_core (allRecs filteredRecs : List PointRec)
    (custom_epsilon : Option Q) (max_size_param : Option Int) :
    Except PipelineError BMResult :=
  let max_size := parse_max_size max_size_param
  if filteredRecs.isEmpty then .error .emptyFilter
  else
    match compute_cosine_distance_matrix (filteredRecs.map (·.vec)) with
    | .error e => .error e
    | .ok D =>
      match elbow_eps (allRecs.map (·.vec)) 3 with
      | .error e => .error e
      | .ok eps0 =>
        let eps := match custom_epsilon with
          | some e => e
          | none => eps0.1
        let nodes := buildNodes (ballCover D eps max_size) filteredRecs
        let edges := makeEdges nodes
        match postprocess_ballmapper nodes edges with
        | none => .error .keyError
        | some pr =>
          .ok { nodes := pr.1, edges := pr.2,
                total_saes := filteredRecs.length,
                original_nodes := nodes.length,
                original_edges := edges.card,
                computed_epsilon := if custom_epsilon.isSome then none else some eps0.1,
                used_epsilon := eps }

/-! ## Definitions following the spec's words, for comparison -/

/-- The spec's description of the final edge set (§4.4): one edge for
every unordered pair of surviving nodes whose covered sets intersect,
carrying the intersection, oriented smaller id first. -/
def specIntersectionEdges (ns : List NodeData) : Finset Edge :=
  ((ns.toFinset ×ˢ ns.toFinset).filter
    (fun q => q.1.id < q.2.id ∧ (q.1.sae_indices ∩ q.2.sae_indices).Nonempty)).image
    (fun q => ⟨q.1.id, q.2.id, q.1.sae_indices ∩ q.2.sae_indices⟩)

/-- A merge of `n` into `t` as the spec words it (§4.4): union the point
sets into the neighbor, redirect every other neighbor of `n` to `t`, then
remove `n` (from the node set and from the adjacency entirely). -/
def specMergeInto (d : NodeDict) (A : Adj) (n t : Nat) : NodeDict × Adj :=
  match lookup d n with
  | none => (d, A)
  | some nd =>
    let d1 := d.map (fun x =>
      if x.id = t then
        { x with saes := mergeSaes x.saes nd.saes,
                 sae_indices := x.sae_indices ∪ nd.sae_indices,
                 sae_count := (x.sae_indices ∪ nd.sae_indices).card }
      else x)
    let xs := (nbrs A n).erase t
    (d1.filter (fun x => x.id ≠ n),
     ((A ∪ xs.image (fun x => (x, t)) ∪ xs.image (fun x => (t, x))).filter
        (fun p => p.1 ≠ n ∧ p.2 ≠ n)))

/-- One pass as claim C6 words it: scan live nodes in ascending `NodeId`
order, check neighbors in ascending order, merge into the first neighbor
whose covered set contains the node's, the merge taking effect before
later nodes of the pass are examined.  Returns the new state and whether
a merge occurred. -/
def specPass (d : NodeDict) (A : Adj) : NodeDict × Adj × Bool :=
  ((d.map (·.id)).insertionSort (· ≤ ·)).foldl
    (fun st i =>
      match lookup st.1 i with
      | none => st
      | some nd =>
        match (finsetAsc (nbrs st.2.1 i)).find? (supPred st.1 nd.sae_indices) with
        | some t =>
          let st' := specMergeInto st.1 st.2.1 i t
          (st'.1, st'.2, true)
        | none => st)
    (d, A, false)

/-- Passes of `specPass` until none merges. -/
def specPasses : Nat → NodeDict → Adj → NodeDict × Adj
  | 0, d, A => (d, A)
  | fuel + 1, d, A =>
    let r := specPass d A
    if r.2.2 then specPasses fuel r.1 r.2.1 else (r.1, r.2.1)

/-- The whole simplifier as claim C6 (with §4.4 and §9 of the spec) words
it: ascending-order immediate merges to a fixpoint, then the final edges
rebuilt from the survivors' pairwise intersections. -/
def specOrderSimplify (nodes : List NodeData) (edges : Finset Edge) :
    List NodeData × Finset Edge :=
  let st := specPasses (nodes.length + 1) nodes (buildAdj edges)
  (st.1, specIntersectionEdges st.1)

/-! ## Basic lemmas about the dictionary and adjacency model -/

/-- The union of all covered-point sets of a node list. -/
def unionIndices (ns : List NodeData) : Finset Nat :=
  ns.foldr (fun x s => x.sae_indices ∪ s) ∅

/-- The node ids are pairwise distinct. -/
def IdsNodup (d : NodeDict) : Prop := (d.map (·.id)).Nodup

/-- No id is adjacent to itself. -/
def NoSelf (A : Adj) : Prop := ∀ i, (i, i) ∉ A

theorem mem_unionIndices {ns : List NodeData} {a : Nat} :
    a ∈ unionIndices ns ↔ ∃ x ∈ ns, a ∈ x.sae_indices := by
  induction ns with
  | nil => simp [unionIndices]
  | cons x xs ih =>
    simp only [unionIndices, List.foldr_cons, Finset.mem_union, List.mem_cons]
    rw [show xs.foldr (fun x s => x.sae_indices ∪ s) ∅ = unionIndices xs from rfl]
    constructor
    · rintro (h | h)
      · exact ⟨x, Or.inl rfl, h⟩
      · obtain ⟨y, hy, ha⟩ := ih.mp h
        exact ⟨y, Or.inr hy, ha⟩
    · rintro ⟨y, (rfl | hy), ha⟩
      · exact Or.inl ha
      · exact Or.inr (ih.mpr ⟨y, hy, ha⟩)

theorem lookup_id {d : NodeDict} {i : Nat} {x : NodeData}
    (h : lookup d i = some x) : x.id = i := by
  have := List.find?_some h
  simpa using this

theorem mem_of_lookup {d : NodeDict} {i : Nat} {x : NodeData}
    (h : lookup d i = some x) : x ∈ d :=
  List.mem_of_find?_eq_some h

theorem lookup_isSome_of_mem {d : NodeDict} {x : NodeData} (h : x ∈ d) :
    (lookup d x.id).isSome :=
  List.find?_isSome.mpr ⟨x, h, by simp⟩

theorem lookup_eq_self {d : NodeDict} (hnd : IdsNodup d) {x : NodeData}
    (h : x ∈ d) : lookup d x.id = some x := by
  induction d with
  | nil => cases h
  | cons y ys ih =>
    rcases List.mem_cons.mp h with rfl | h
    · simp only [lookup]
      rw [List.find?_cons_of_pos _ (by simp)]
    · have hy : ¬ (y.id = x.id) := by
        intro he
        apply (List.nodup_cons.mp hnd).1
        simpa [he] using List.mem_map_of_mem (·.id) h
      simp only [lookup]
      rw [List.find?_cons_of_neg _ (by simpa using hy)]
      exact ih (List.nodup_cons.mp hnd).2 h

theorem lookup_unique {d : NodeDict} (hnd : IdsNodup d) {x y : NodeData}
    (hx : x ∈ d) (hy : y ∈ d) (he : x.id = y.id) : x = y := by
  have h1 := lookup_eq_self hnd hx
  have h2 := lookup_eq_self hnd hy
  rw [he] at h1
  exact Option.some_injective _ (h1.symm.trans h2)

theorem mem_nbrs {A : Adj} {i j : Nat} : j ∈ nbrs A i ↔ (i, j) ∈ A := by
  simp only [nbrs, Finset.mem_image, Finset.mem_filter]
  constructor
  · rintro ⟨⟨a, b⟩, ⟨hmem, rfl⟩, rfl⟩
    exact hmem
  · intro h
    exact ⟨(i, j), ⟨h, rfl⟩, rfl⟩

theorem mem_finsetAsc {s : Finset Nat} {j : Nat} : j ∈ finsetAsc s ↔ j ∈ s := by
  rcases s with ⟨m, hm⟩
  induction m using Quot.ind with
  | _ l => simp [finsetAsc, Finset.mem_def, List.mem_insertionSort]

theorem mem_buildAdj {es : Finset Edge} {p : Nat × Nat} :
    p ∈ buildAdj es ↔ ∃ e ∈ es, p = (e.source, e.target) ∨ p = (e.target, e.source) := by
  simp only [buildAdj, Finset.mem_biUnion, Finset.mem_insert, Finset.mem_singleton]

theorem mem_listPairs_left {α : Type} {l : List α} {a b : α}
    (h : (a, b) ∈ listPairs l) : a ∈ l ∧ b ∈ l := by
  induction l with
  | nil => cases h
  | cons x xs ih =>
    rcases List.mem_append.mp h with h | h
    · obtain ⟨y, hy, he⟩ := List.mem_map.mp h
      injection he with h1 h2
      subst h1
      subst h2
      exact ⟨List.mem_cons_self x xs, List.mem_cons_of_mem _ hy⟩
    · obtain ⟨ha, hb⟩ := ih h
      exact ⟨List.mem_cons_of_mem _ ha, List.mem_cons_of_mem _ hb⟩

theorem listPairs_of_mem {α : Type} {l : List α} {a b : α}
    (ha : a ∈ l) (hb : b ∈ l) (hne : a ≠ b) :
    (a, b) ∈ listPairs l ∨ (b, a) ∈ listPairs l := by
  induction l with
  | nil => cases ha
  | cons x xs ih =>
    by_cases hax : a = x
    · subst hax
      have hb' : b ∈ xs := by
        rcases List.mem_cons.mp hb with h | h
        · exact absurd h.symm hne
        · exact h
      exact Or.inl (List.mem_append.mpr (Or.inl (List.mem_map_of_mem _ hb')))
    · by_cases hbx : b = x
      · subst hbx
        have ha' : a ∈ xs := by
          rcases List.mem_cons.mp ha with h | h
          · exact absurd h hax
          · exact h
        exact Or.inr (List.mem_append.mpr (Or.inl (List.mem_map_of_mem _ ha')))
      · have ha' : a ∈ xs := by
          rcases List.mem_cons.mp ha with h | h
          · exact absurd h hax
          · exact h
        have hb' : b ∈ xs := by
          rcases List.mem_cons.mp hb with h | h
          · exact absurd h hbx
          · exact h
        rcases ih ha' hb' with h | h
        · exact Or.inl (List.mem_append.mpr (Or.inr h))
        · exact Or.inr (List.mem_append.mpr (Or.inr h))

theorem listPairs_map_ne {α β : Type} {l : List α} {f : α → β}
    (hnd : (l.map f).Nodup) {a b : α} (h : (a, b) ∈ listPairs l) : f a ≠ f b := by
  induction l with
  | nil => cases h
  | cons x xs ih =>
    rcases List.nodup_cons.mp hnd with ⟨hx, hxs⟩
    rcases List.mem_append.mp h with h | h
    · obtain ⟨y, hy, he⟩ := List.mem_map.mp h
      injection he with h1 h2
      subst h1; subst h2
      intro hc
      exact hx (hc ▸ List.mem_map_of_mem f hy)
    · exact ih hxs h

theorem mem_makeEdges {ns : List NodeData} {e : Edge} :
    e ∈ makeEdges ns ↔ ∃ q ∈ listPairs ns,
      (q.1.sae_indices ∩ q.2.sae_indices).Nonempty ∧
      e = ⟨q.1.id, q.2.id, q.1.sae_indices ∩ q.2.sae_indices⟩ := by
  simp only [makeEdges, List.mem_toFinset, List.mem_filterMap]
  constructor
  · rintro ⟨q, hq, he⟩
    by_cases hne : (q.1.sae_indices ∩ q.2.sae_indices).Nonempty
    · rw [if_pos hne] at he
      exact ⟨q, hq, hne, (Option.some_injective _ he).symm⟩
    · rw [if_neg hne] at he
      cases he
  · rintro ⟨q, hq, hne, rfl⟩
    exact ⟨q, hq, by rw [if_pos hne]⟩

theorem mem_specIntersectionEdges {ns : List NodeData} {e : Edge} :
    e ∈ specIntersectionEdges ns ↔ ∃ a ∈ ns, ∃ b ∈ ns, a.id < b.id ∧
      (a.sae_indices ∩ b.sae_indices).Nonempty ∧
      e = ⟨a.id, b.id, a.sae_indices ∩ b.sae_indices⟩ := by
  simp only [specIntersectionEdges, Finset.mem_image, Finset.mem_filter,
    Finset.mem_product, List.mem_toFinset]
  constructor
  · rintro ⟨⟨a, b⟩, ⟨⟨ha, hb⟩, hlt, hne⟩, rfl⟩
    exact ⟨a, ha, b, hb, hlt, hne, rfl⟩
  · rintro ⟨a, ha, b, hb, hlt, hne, rfl⟩
    exact ⟨(a, b), ⟨⟨ha, hb⟩, hlt, hne⟩, rfl⟩

/-! ## The merge-loop invariant -/

/-- Among live nodes, adjacency holds exactly between distinct nodes with
intersecting covered sets. -/
def AdjInv (d : NodeDict) (A : Adj) : Prop :=
  ∀ i j ni nj, lookup d i = some ni → lookup d j = some nj →
    ((i, j) ∈ A ↔ (ni.sae_indices ∩ nj.sae_indices).Nonempty ∧ i ≠ j)

/-- The state invariant of the merge loop. -/
structure Inv (d : NodeDict) (A : Adj) : Prop where
  nodup : IdsNodup d
  noSelf : NoSelf A
  adjInv : AdjInv d A

/-- Relation between a dictionary and a later one: surviving ids keep
their covered sets, and total coverage is preserved. -/
structure Reach (d0 d : NodeDict) : Prop where
  keep : ∀ i x, lookup d i = some x →
    ∃ y, lookup d0 i = some y ∧ x.sae_indices = y.sae_indices
  uni : unionIndices d = unionIndices d0

theorem reachSelf (d : NodeDict) : Reach d d :=
  ⟨fun _ x h => ⟨x, h, rfl⟩, rfl⟩

theorem Reach.trans {d0 d1 d2 : NodeDict} (h1 : Reach d0 d1) (h2 : Reach d1 d2) :
    Reach d0 d2 := by
  refine ⟨fun i x h => ?_, h2.uni.trans h1.uni⟩
  obtain ⟨y, hy, he⟩ := h2.keep i x h
  obtain ⟨z, hz, he'⟩ := h1.keep i y hy
  exact ⟨z, hz, he.trans he'⟩

/-- What the scan records about a merge pair, stated against the
pass-start dictionary. -/
def PairOk (d : NodeDict) (p : Nat × Nat) : Prop :=
  ∃ nd td, lookup d p.1 = some nd ∧ lookup d p.2 = some td ∧
    nd.sae_indices ⊆ td.sae_indices ∧ p.1 ≠ p.2

theorem collectMerges_sound {d : NodeDict} {A : Adj}
    (hnodup : IdsNodup d) (hnoSelf : NoSelf A)
    {p : Nat × Nat} (hp : p ∈ collectMerges d A) :
    PairOk d p ∧ (p.1, p.2) ∈ A := by
  simp only [collectMerges, List.mem_flatten, List.mem_map] at hp
  obtain ⟨l, ⟨nd, hnd, hl⟩, hpl⟩ := hp
  subst hl
  rcases hfind : (finsetAsc (nbrs A nd.id)).find? (supPred d nd.sae_indices)
      with _ | t
  · rw [hfind] at hpl
    cases hpl
  · rw [hfind] at hpl
    have hpe : p = (nd.id, t) := by simpa using hpl
    subst hpe
    have hpred := List.find?_some hfind
    have htA : (nd.id, t) ∈ A :=
      mem_nbrs.mp (mem_finsetAsc.mp (List.mem_of_find?_eq_some hfind))
    have hne : nd.id ≠ t := fun he => hnoSelf t (he ▸ htA)
    rcases hlt : lookup d t with _ | td
    · rw [supPred.eq_def, hlt] at hpred
      cases hpred
    · rw [supPred.eq_def, hlt] at hpred
      have hsub : nd.sae_indices ⊆ td.sae_indices := of_decide_eq_true hpred
      exact ⟨⟨nd, td, lookup_eq_self hnodup hnd, hlt, hsub, hne⟩, htA⟩

theorem collectMerges_isSome {d : NodeDict} {A : Adj} {p : Nat × Nat}
    (hp : p ∈ collectMerges d A) :
    (lookup d p.1).isSome ∧ (lookup d p.2).isSome := by
  simp only [collectMerges, List.mem_flatten, List.mem_map] at hp
  obtain ⟨l, ⟨nd, hnd, hl⟩, hpl⟩ := hp
  subst hl
  rcases hfind : (finsetAsc (nbrs A nd.id)).find? (supPred d nd.sae_indices)
      with _ | t
  · rw [hfind] at hpl
    cases hpl
  · rw [hfind] at hpl
    have hpe : p = (nd.id, t) := by simpa using hpl
    subst hpe
    have hpred := List.find?_some hfind
    refine ⟨lookup_isSome_of_mem hnd, ?_⟩
    rcases hlt : lookup d t with _ | td
    · rw [supPred.eq_def, hlt] at hpred
      cases hpred
    · simp

theorem collectMerges_eq_nil_iff {d : NodeDict} {A : Adj} :
    collectMerges d A = [] ↔
      ∀ nd ∈ d, ∀ j, (nd.id, j) ∈ A → ¬ supPred d nd.sae_indices j := by
  constructor
  · intro h nd hnd j hj hsup
    have hmem : j ∈ finsetAsc (nbrs A nd.id) :=
      mem_finsetAsc.mpr (mem_nbrs.mpr hj)
    have hsome : ((finsetAsc (nbrs A nd.id)).find? (supPred d nd.sae_indices)).isSome :=
      List.find?_isSome.mpr ⟨j, hmem, hsup⟩
    rcases hfind : (finsetAsc (nbrs A nd.id)).find? (supPred d nd.sae_indices)
        with _ | t
    · rw [hfind] at hsome
      cases hsome
    · have hmem2 : (nd.id, t) ∈ collectMerges d A := by
        simp only [collectMerges, List.mem_flatten, List.mem_map]
        exact ⟨[(nd.id, t)], ⟨nd, hnd, by rw [hfind]⟩, by simp⟩
      rw [h] at hmem2
      cases hmem2
  · intro h
    simp only [collectMerges]
    rw [List.flatten_eq_nil_iff]
    intro l hl
    simp only [List.mem_map] at hl
    obtain ⟨nd, hnd, hl⟩ := hl
    subst hl
    rcases hfind : (finsetAsc (nbrs A nd.id)).find? (supPred d nd.sae_indices)
        with _ | t
    · rfl
    · have ht := List.find?_some hfind
      have hjA : (nd.id, t) ∈ A :=
        mem_nbrs.mp (mem_finsetAsc.mp (List.mem_of_find?_eq_some hfind))
      exact absurd ht (by simpa using h nd hnd t hjA)

theorem updFun_id (nd td : NodeData) (t : Nat) (x : NodeData) :
    (updFun nd td t x).id = x.id := by
  unfold updFun
  split <;> rfl

theorem applyMerge_perform {d : NodeDict} {A : Adj} {n t : Nat}
    {nd td : NodeData} (hn : lookup d n = some nd) (ht : lookup d t = some td) :
    applyMerge (d, A) (n, t) =
      ((d.map (updFun nd td t)).filter (fun x => x.id ≠ n), rewire A n t) := by
  rw [applyMerge.eq_def]
  simp only [hn, ht]

theorem applyMerge_skip {d : NodeDict} {A : Adj} {n t : Nat}
    (h : lookup d n = none ∨ lookup d t = none) :
    applyMerge (d, A) (n, t) = (d, A) := by
  rw [applyMerge.eq_def]
  rcases h with h | h
  · simp only [h]
  · rcases hn : lookup d n with _ | nd <;> simp only [h, hn]

theorem lookup_map_updFun (nd td : NodeData) (t : Nat) (d : NodeDict) (i : Nat) :
    lookup (d.map (updFun nd td t)) i = (lookup d i).map (updFun nd td t) := by
  induction d with
  | nil => rfl
  | cons y ys ih =>
    by_cases hy : y.id = i
    · simp only [lookup, List.map_cons]
      rw [List.find?_cons_of_pos _ (by simp [updFun_id, hy]),
        List.find?_cons_of_pos _ (by simp [hy])]
      rfl
    · simp only [lookup, List.map_cons]
      rw [List.find?_cons_of_neg _ (by simp [updFun_id, hy]),
        List.find?_cons_of_neg _ (by simp [hy])]
      exact ih

theorem lookup_filter_ne {d : NodeDict} {n i : Nat} (hne : i ≠ n) :
    lookup (d.filter (fun x => x.id ≠ n)) i = lookup d i := by
  induction d with
  | nil => rfl
  | cons y ys ih =>
    by_cases hyn : y.id = n
    · rw [List.filter_cons_of_neg (by simp [hyn])]
      have hyi : ¬ (y.id = i) := fun he => hne (he ▸ hyn ▸ rfl)
      simp only [lookup]
      rw [List.find?_cons_of_neg _ (by simp [hyi])]
      exact ih
    · rw [List.filter_cons_of_pos (by simp [hyn])]
      by_cases hyi : y.id = i
      · simp only [lookup]
        rw [List.find?_cons_of_pos _ (by simp [hyi]),
          List.find?_cons_of_pos _ (by simp [hyi])]
      · simp only [lookup]
        rw [List.find?_cons_of_neg _ (by simp [hyi]),
          List.find?_cons_of_neg _ (by simp [hyi])]
        exact ih

theorem lookup_filter_self {d : NodeDict} {n : Nat} :
    lookup (d.filter (fun x => x.id ≠ n)) n = none := by
  rw [lookup, List.find?_eq_none]
  intro x hx
  have hxn := (List.mem_filter.mp hx).2
  simp only [decide_not] at hxn ⊢
  simpa using hxn

theorem mem_rewire {A : Adj} {n t : Nat} {a b : Nat} :
    (a, b) ∈ rewire A n t ↔
      a ≠ n ∧
        (((a, b) ∈ A ∧ ¬(b = n ∧ a ≠ t ∧ (n, a) ∈ A)) ∨
         (b = t ∧ a ≠ t ∧ (n, a) ∈ A) ∨
         (a = t ∧ b ≠ t ∧ (n, b) ∈ A)) := by
  simp only [rewire, Finset.mem_filter, Finset.mem_union, Finset.mem_sdiff,
    Finset.mem_image, Finset.mem_erase, mem_nbrs, Prod.mk.injEq]
  constructor
  · rintro ⟨h, ha⟩
    refine ⟨by simpa using ha, ?_⟩
    rcases h with h12 | h2
    · rcases h12 with ⟨hA, hR⟩ | h1
      · left
        refine ⟨hA, ?_⟩
        rintro ⟨hb, hat, hna⟩
        exact hR ⟨a, ⟨hat, hna⟩, rfl, hb.symm⟩
      · obtain ⟨x, ⟨hxt, hnx⟩, hxa, htb⟩ := h1
        subst hxa
        exact Or.inr (Or.inl ⟨htb.symm, hxt, hnx⟩)
    · obtain ⟨x, ⟨hxt, hnx⟩, hta, hxb⟩ := h2
      subst hxb
      exact Or.inr (Or.inr ⟨hta.symm, hxt, hnx⟩)
  · rintro ⟨ha, hcase⟩
    rcases hcase with ⟨hA, hR⟩ | ⟨hb, hat, hna⟩ | ⟨hat, hbt, hnb⟩
    · refine ⟨Or.inl (Or.inl ⟨hA, ?_⟩), by simpa using ha⟩
      rintro ⟨x, ⟨hxt, hnx⟩, hxa, hnb⟩
      subst hxa
      exact hR ⟨hnb.symm, hxt, hnx⟩
    · exact ⟨Or.inl (Or.inr ⟨a, ⟨hat, hna⟩, rfl, hb.symm⟩), by simpa using ha⟩
    · exact ⟨Or.inr ⟨b, ⟨hbt, hnb⟩, hat.symm, rfl⟩, by simpa using ha⟩

/-- The main preservation lemma: performing (or skipping) one recorded
merge keeps the invariant and the reachability relation to the pass-start
dictionary. -/
theorem merge_step_inv {d0 d : NodeDict} {A : Adj} {n t : Nat}
    (hI : Inv d A) (hR : Reach d0 d) (hp : PairOk d0 (n, t)) :
    Inv (applyMerge (d, A) (n, t)).1 (applyMerge (d, A) (n, t)).2 ∧
      Reach d0 (applyMerge (d, A) (n, t)).1 := by
  obtain ⟨nd0, td0, hn0, ht0, hsub0, hne⟩ := hp
  rcases hln : lookup d n with _ | nd
  · rw [applyMerge_skip (Or.inl hln)]
    exact ⟨hI, hR⟩
  rcases hlt : lookup d t with _ | td
  · rw [applyMerge_skip (Or.inr hlt)]
    exact ⟨hI, hR⟩
  rw [applyMerge_perform hln hlt]
  simp only at hne ⊢
  -- the current covered sets are the pass-start ones
  obtain ⟨nd0x, hn0x, hndInd⟩ := hR.keep n nd hln
  obtain ⟨td0x, ht0x, htdInd⟩ := hR.keep t td hlt
  rw [hn0] at hn0x
  rw [ht0] at ht0x
  obtain rfl : nd0 = nd0x := Option.some.inj hn0x
  obtain rfl : td0 = td0x := Option.some.inj ht0x
  have hsub : nd.sae_indices ⊆ td.sae_indices := by
    rw [hndInd, htdInd]
    exact hsub0
  have hUnion : td.sae_indices ∪ nd.sae_indices = td.sae_indices :=
    Finset.union_eq_left.mpr hsub
  -- the update never changes a covered set
  have hupd_ind : ∀ x ∈ d, (updFun nd td t x).sae_indices = x.sae_indices := by
    intro x hx
    by_cases hxt : x.id = t
    · have hxtd : x = td := by
        have hx2 := lookup_eq_self hI.nodup hx
        rw [hxt, hlt] at hx2
        exact (Option.some.inj hx2).symm
      subst hxtd
      simp [updFun, hxt, hUnion]
    · simp [updFun, hxt]
  -- lookup in the post-merge dictionary
  have hlook : ∀ i, i ≠ n →
      lookup ((d.map (updFun nd td t)).filter (fun x => x.id ≠ n)) i =
        (lookup d i).map (updFun nd td t) := by
    intro i hi
    rw [lookup_filter_ne hi, lookup_map_updFun]
  have hlookn : lookup ((d.map (updFun nd td t)).filter (fun x => x.id ≠ n)) n =
      none := lookup_filter_self
  have hnodup2 : IdsNodup ((d.map (updFun nd td t)).filter (fun x => x.id ≠ n)) := by
    have hids : (d.map (updFun nd td t)).map (·.id) = d.map (·.id) := by
      rw [List.map_map]
      exact List.map_congr_left (fun x _ => updFun_id nd td t x)
    have hsl : ((d.map (updFun nd td t)).filter (fun x => x.id ≠ n)).Sublist
        (d.map (updFun nd td t)) := List.filter_sublist _
    have hsl2 : (((d.map (updFun nd td t)).filter (fun x => x.id ≠ n)).map (·.id)).Sublist
        ((d.map (updFun nd td t)).map (·.id)) := hsl.map _
    exact List.Nodup.sublist hsl2 (hids ▸ hI.nodup)
  refine ⟨⟨hnodup2, ?_, ?_⟩, ?_⟩
  · -- no self-adjacency
    intro i hii
    rcases mem_rewire.mp hii with ⟨hin, (⟨hA, -⟩ | ⟨hbt, hat, -⟩ | ⟨hat, hbt, -⟩)⟩
    · exact hI.noSelf i hA
    · exact hat hbt
    · exact hbt hat
  · -- the adjacency invariant
    intro i j xi xj hxi hxj
    have hin : i ≠ n := by
      intro he
      rw [he, hlookn] at hxi
      cases hxi
    have hjn : j ≠ n := by
      intro he
      rw [he, hlookn] at hxj
      cases hxj
    rw [hlook i hin] at hxi
    rw [hlook j hjn] at hxj
    rcases hyi : lookup d i with _ | yi
    · rw [hyi] at hxi
      cases hxi
    rcases hyj : lookup d j with _ | yj
    · rw [hyj] at hxj
      cases hxj
    rw [hyi, Option.map_some'] at hxi
    rw [hyj, Option.map_some'] at hxj
    obtain rfl : updFun nd td t yi = xi := Option.some.inj hxi
    obtain rfl : updFun nd td t yj = xj := Option.some.inj hxj
    rw [hupd_ind yi (mem_of_lookup hyi), hupd_ind yj (mem_of_lookup hyj)]
    rw [mem_rewire]
    constructor
    · rintro ⟨-, hcase⟩
      rcases hcase with ⟨hA, -⟩ | ⟨hbt, hat, hna⟩ | ⟨hat, hbt, hnb⟩
      · exact (hI.adjInv i j yi yj hyi hyj).mp hA
      · -- j = t, (n, i) ∈ A: the intersection with n propagates to t
        subst hbt
        obtain rfl : yj = td := by
          have h2 := hlt.symm.trans hyj
          exact (Option.some.inj h2).symm
        have hni := (hI.adjInv n i nd yi hln hyi).mp hna
        refine ⟨?_, hat⟩
        have h1 : (yi.sae_indices ∩ nd.sae_indices).Nonempty := by
          rw [Finset.inter_comm]
          exact hni.1
        exact h1.mono (Finset.inter_subset_inter (le_refl _) hsub)
      · -- i = t, (n, j) ∈ A: symmetric
        subst hat
        obtain rfl : yi = td := by
          have h2 := hlt.symm.trans hyi
          exact (Option.some.inj h2).symm
        have hnj := (hI.adjInv n j nd yj hln hyj).mp hnb
        refine ⟨?_, Ne.symm hbt⟩
        have h1 : (nd.sae_indices ∩ yj.sae_indices).Nonempty := hnj.1
        exact h1.mono (Finset.inter_subset_inter hsub (le_refl _))
    · rintro ⟨hInter, hij⟩
      have hA : (i, j) ∈ A := (hI.adjInv i j yi yj hyi hyj).mpr ⟨hInter, hij⟩
      exact ⟨hin, Or.inl ⟨hA, fun h => hjn h.1⟩⟩
  · -- reachability to the pass-start dictionary
    refine ⟨?_, ?_⟩
    · intro i x hx
      have hin : i ≠ n := by
        intro he
        rw [he, hlookn] at hx
        cases hx
      rw [hlook i hin] at hx
      rcases hyi : lookup d i with _ | yi
      · rw [hyi] at hx
        cases hx
      rw [hyi, Option.map_some'] at hx
      obtain rfl : updFun nd td t yi = x := Option.some.inj hx
      obtain ⟨z, hz, hez⟩ := hR.keep i yi hyi
      exact ⟨z, hz, (hupd_ind yi (mem_of_lookup hyi)).trans hez⟩
    · refine Eq.trans ?_ hR.uni
      apply Finset.ext
      intro a
      rw [mem_unionIndices, mem_unionIndices]
      constructor
      · rintro ⟨x, hx, hax⟩
        obtain ⟨hx1, -⟩ := List.mem_filter.mp hx
        obtain ⟨y, hy, rfl⟩ := List.mem_map.mp hx1
        rw [hupd_ind y hy] at hax
        exact ⟨y, hy, hax⟩
      · rintro ⟨y, hy, hay⟩
        by_cases hyn : y.id = n
        · -- the removed node's points live on in the merge target
          have hynd : y = nd := by
            have hy2 := lookup_eq_self hI.nodup hy
            rw [hyn, hln] at hy2
            exact (Option.some.inj hy2).symm
          refine ⟨updFun nd td t td, ?_, ?_⟩
          · apply List.mem_filter.mpr
            refine ⟨List.mem_map_of_mem _ (mem_of_lookup hlt), ?_⟩
            have h1 : (updFun nd td t td).id = t := by
              rw [updFun_id]
              exact lookup_id hlt
            simp [h1, Ne.symm hne]
          · rw [hupd_ind td (mem_of_lookup hlt)]
            rw [hynd] at hay
            exact hsub hay
        · refine ⟨updFun nd td t y, ?_, ?_⟩
          · apply List.mem_filter.mpr
            refine ⟨List.mem_map_of_mem _ hy, ?_⟩
            simp [updFun_id, hyn]
          · rw [hupd_ind y hy]
            exact hay

theorem foldl_merge_inv {d0 : NodeDict} {ms : List (Nat × Nat)} :
    ∀ {d : NodeDict} {A : Adj}, Inv d A → Reach d0 d →
    (∀ p ∈ ms, PairOk d0 p) →
    Inv (ms.foldl applyMerge (d, A)).1 (ms.foldl applyMerge (d, A)).2 ∧
      Reach d0 (ms.foldl applyMerge (d, A)).1 := by
  induction ms with
  | nil => exact fun hI hR _ => ⟨hI, hR⟩
  | cons p ps ih =>
    intro d A hI hR hms
    rcases p with ⟨n, t⟩
    have hstep := merge_step_inv hI hR (hms _ (List.mem_cons_self _ _))
    simp only [List.foldl_cons]
    exact ih hstep.1 hstep.2 (fun q hq => hms q (List.mem_cons_of_mem _ hq))

theorem pass_inv {d : NodeDict} {A : Adj} (hI : Inv d A) :
    Inv ((collectMerges d A).foldl applyMerge (d, A)).1
        ((collectMerges d A).foldl applyMerge (d, A)).2 ∧
      Reach d ((collectMerges d A).foldl applyMerge (d, A)).1 :=
  foldl_merge_inv hI (reachSelf d)
    (fun _ hp => (collectMerges_sound hI.nodup hI.noSelf hp).1)

theorem mergePasses_inv {fuel : Nat} :
    ∀ {d : NodeDict} {A : Adj}, Inv d A →
    Inv (mergePasses fuel d A).1 (mergePasses fuel d A).2 ∧
      Reach d (mergePasses fuel d A).1 := by
  induction fuel with
  | zero => exact fun hI => ⟨hI, reachSelf _⟩
  | succ f ih =>
    intro d A hI
    simp only [mergePasses]
    by_cases h : (collectMerges d A).isEmpty
    · rw [if_pos h]
      exact ⟨hI, reachSelf d⟩
    · rw [if_neg h]
      have hp := pass_inv hI
      have hrest := ih hp.1
      exact ⟨hrest.1, Reach.trans hp.2 hrest.2⟩

/-! ## Termination: each non-empty pass removes a node -/

theorem applyMerge_length_le (st : NodeDict × Adj) (p : Nat × Nat) :
    (applyMerge st p).1.length ≤ st.1.length := by
  rcases st with ⟨d, A⟩
  rcases p with ⟨n, t⟩
  rcases hln : lookup d n with _ | nd
  · rw [applyMerge_skip (Or.inl hln)]
  · rcases hlt : lookup d t with _ | td
    · rw [applyMerge_skip (Or.inr hlt)]
    · rw [applyMerge_perform hln hlt]
      calc ((d.map (updFun nd td t)).filter (fun x => x.id ≠ n)).length
          ≤ (d.map (updFun nd td t)).length := List.length_filter_le _ _
        _ = d.length := List.length_map _ _

theorem foldl_merge_length_le (ms : List (Nat × Nat)) :
    ∀ st : NodeDict × Adj, (ms.foldl applyMerge st).1.length ≤ st.1.length := by
  induction ms with
  | nil => exact fun _ => le_refl _
  | cons p ps ih =>
    intro st
    simp only [List.foldl_cons]
    exact le_trans (ih _) (applyMerge_length_le st p)

theorem pass_length_lt {d : NodeDict} {A : Adj}
    (hne : collectMerges d A ≠ []) :
    ((collectMerges d A).foldl applyMerge (d, A)).1.length < d.length := by
  obtain ⟨p, ps, hms⟩ := List.exists_cons_of_ne_nil hne
  have hp : p ∈ collectMerges d A := by
    rw [hms]
    exact List.mem_cons_self _ _
  obtain ⟨h1, h2⟩ := collectMerges_isSome hp
  rcases p with ⟨n, t⟩
  rcases hln : lookup d n with _ | nd
  · rw [hln] at h1
    cases h1
  rcases hlt : lookup d t with _ | td
  · rw [hlt] at h2
    cases h2
  have hfirst : (applyMerge (d, A) (n, t)).1.length < d.length := by
    rw [applyMerge_perform hln hlt]
    simp only
    have hlt2 : ((d.map (updFun nd td t)).filter (fun x => x.id ≠ n)).length <
        (d.map (updFun nd td t)).length := by
      apply List.length_filter_lt_length_iff_exists.mpr
      refine ⟨updFun nd td t nd, List.mem_map_of_mem _ (mem_of_lookup hln), ?_⟩
      simp [updFun_id, lookup_id hln]
    calc ((d.map (updFun nd td t)).filter (fun x => x.id ≠ n)).length
        < (d.map (updFun nd td t)).length := hlt2
      _ = d.length := List.length_map _ _
  rw [hms, List.foldl_cons]
  exact lt_of_le_of_lt (foldl_merge_length_le ps _) hfirst

theorem mergePasses_fix {fuel : Nat} :
    ∀ {d : NodeDict} {A : Adj}, d.length < fuel →
    collectMerges (mergePasses fuel d A).1 (mergePasses fuel d A).2 = [] := by
  induction fuel with
  | zero => exact fun h => absurd h (Nat.not_lt_zero _)
  | succ f ih =>
    intro d A hlen
    simp only [mergePasses]
    by_cases h : (collectMerges d A).isEmpty
    · rw [if_pos h]
      exact List.isEmpty_iff.mp h
    · rw [if_neg h]
      apply ih
      have hne : collectMerges d A ≠ [] := by
        simpa [List.isEmpty_iff] using h
      have := pass_length_lt hne
      omega

/-! ## The final edge reconstruction -/

theorem buildFinal_eq_spec {d : NodeDict} {A : Adj} (hI : Inv d A)
    {es : Finset Edge} (h : buildFinalEdges d A = some es) :
    es = specIntersectionEdges d := by
  rw [buildFinalEdges] at h
  by_cases hc : ∀ p ∈ A.filter (fun p => p.1 < p.2),
      (lookup d p.1).isSome ∧ (lookup d p.2).isSome
  · rw [dif_pos hc] at h
    obtain rfl : _ = es := Option.some.inj h
    apply Finset.ext
    intro e
    simp only [Finset.mem_image, Finset.mem_filter]
    rw [mem_specIntersectionEdges]
    constructor
    · rintro ⟨⟨i, j⟩, ⟨hA, hij⟩, rfl⟩
      obtain ⟨hsi, hsj⟩ := hc (i, j) (Finset.mem_filter.mpr ⟨hA, hij⟩)
      rcases hyi : lookup d i with _ | yi
      · rw [hyi] at hsi
        cases hsi
      rcases hyj : lookup d j with _ | yj
      · rw [hyj] at hsj
        cases hsj
      have hmem := (hI.adjInv i j yi yj hyi hyj).mp hA
      refine ⟨yi, mem_of_lookup hyi, yj, mem_of_lookup hyj, ?_, ?_, ?_⟩
      · rw [lookup_id hyi, lookup_id hyj]
        exact hij
      · exact hmem.1
      · rw [lookup_id hyi, lookup_id hyj]
        simp [indicesOf, hyi, hyj]
    · rintro ⟨a, ha, b, hb, hlt, hss, rfl⟩
      have hla := lookup_eq_self hI.nodup ha
      have hlb := lookup_eq_self hI.nodup hb
      have hA : (a.id, b.id) ∈ A :=
        (hI.adjInv a.id b.id a b hla hlb).mpr ⟨hss, Nat.ne_of_lt hlt⟩
      refine ⟨(a.id, b.id), ⟨hA, hlt⟩, ?_⟩
      simp [indicesOf, hla, hlb]
  · rw [dif_neg hc] at h
    cases h

theorem buildFinal_some {d : NodeDict} {A : Adj}
    (h : ∀ p ∈ A, (lookup d p.1).isSome ∧ (lookup d p.2).isSome) :
    (buildFinalEdges d A).isSome := by
  rw [buildFinalEdges]
  rw [dif_pos (fun p hp => h p (Finset.mem_filter.mp hp).1)]
  rfl

/-! ## The invariant holds for the raw graphs fed to the simplifier -/

theorem inv_makeEdges {ns : List NodeData} (hnd : IdsNodup ns) :
    Inv ns (buildAdj (makeEdges ns)) := by
  refine ⟨hnd, ?_, ?_⟩
  · intro i hii
    rcases mem_buildAdj.mp hii with ⟨e, he, hor⟩
    obtain ⟨q, hq, hne, rfl⟩ := mem_makeEdges.mp he
    have hqne := listPairs_map_ne hnd hq
    apply hqne
    rcases hor with he2 | he2 <;>
    · injection he2 with h1 h2
      dsimp only at h1 h2
      omega
  · intro i j ni nj hi hj
    constructor
    · intro hA
      rcases mem_buildAdj.mp hA with ⟨e, he, hor⟩
      obtain ⟨q, hq, hne, rfl⟩ := mem_makeEdges.mp he
      obtain ⟨hq1, hq2⟩ := mem_listPairs_left hq
      have hqne := listPairs_map_ne hnd hq
      rcases hor with he2 | he2
      · injection he2 with h1 h2
        subst h1
        subst h2
        obtain rfl : ni = q.1 :=
          Option.some.inj ((lookup_eq_self hnd hq1).symm.trans hi).symm
        obtain rfl : nj = q.2 :=
          Option.some.inj ((lookup_eq_self hnd hq2).symm.trans hj).symm
        exact ⟨hne, hqne⟩
      · injection he2 with h1 h2
        subst h1
        subst h2
        obtain rfl : ni = q.2 :=
          Option.some.inj ((lookup_eq_self hnd hq2).symm.trans hi).symm
        obtain rfl : nj = q.1 :=
          Option.some.inj ((lookup_eq_self hnd hq1).symm.trans hj).symm
        exact ⟨by rwa [Finset.inter_comm], fun he => hqne he.symm⟩
    · rintro ⟨hss, hij⟩
      have hi2 := mem_of_lookup hi
      have hj2 := mem_of_lookup hj
      have hne2 : ni ≠ nj := by
        intro he
        apply hij
        rw [← lookup_id hi, ← lookup_id hj, he]
      rcases listPairs_of_mem hi2 hj2 hne2 with hq | hq
      · apply mem_buildAdj.mpr
        refine ⟨⟨ni.id, nj.id, ni.sae_indices ∩ nj.sae_indices⟩, ?_, ?_⟩
        · exact mem_makeEdges.mpr ⟨(ni, nj), hq, hss, rfl⟩
        · left
          rw [lookup_id hi, lookup_id hj]
      · apply mem_buildAdj.mpr
        refine ⟨⟨nj.id, ni.id, nj.sae_indices ∩ ni.sae_indices⟩, ?_, ?_⟩
        · exact mem_makeEdges.mpr ⟨(nj, ni), hq, by rwa [Finset.inter_comm], rfl⟩
        · right
          rw [lookup_id hi, lookup_id hj]

theorem inv_specEdges {ns : List NodeData} (hnd : IdsNodup ns) :
    Inv ns (buildAdj (specIntersectionEdges ns)) := by
  refine ⟨hnd, ?_, ?_⟩
  · intro i hii
    rcases mem_buildAdj.mp hii with ⟨e, he, hor⟩
    obtain ⟨a, _, b, _, hlt, _, rfl⟩ := mem_specIntersectionEdges.mp he
    rcases hor with he2 | he2 <;>
    · injection he2 with h1 h2
      dsimp only at h1 h2
      omega
  · intro i j ni nj hi hj
    constructor
    · intro hA
      rcases mem_buildAdj.mp hA with ⟨e, he, hor⟩
      obtain ⟨a, ha, b, hb, hlt, hss, rfl⟩ := mem_specIntersectionEdges.mp he
      rcases hor with he2 | he2
      · injection he2 with h1 h2
        subst h1
        subst h2
        obtain rfl : ni = a :=
          Option.some.inj ((lookup_eq_self hnd ha).symm.trans hi).symm
        obtain rfl : nj = b :=
          Option.some.inj ((lookup_eq_self hnd hb).symm.trans hj).symm
        exact ⟨hss, Nat.ne_of_lt hlt⟩
      · injection he2 with h1 h2
        subst h1
        subst h2
        obtain rfl : ni = b :=
          Option.some.inj ((lookup_eq_self hnd hb).symm.trans hi).symm
        obtain rfl : nj = a :=
          Option.some.inj ((lookup_eq_self hnd ha).symm.trans hj).symm
        exact ⟨by rwa [Finset.inter_comm], (Nat.ne_of_lt hlt).symm⟩
    · rintro ⟨hss, hij⟩
      have hi2 := mem_of_lookup hi
      have hj2 := mem_of_lookup hj
      rcases Nat.lt_or_ge i j with hlt | hge
      · apply mem_buildAdj.mpr
        refine ⟨⟨ni.id, nj.id, ni.sae_indices ∩ nj.sae_indices⟩, ?_, ?_⟩
        · apply mem_specIntersectionEdges.mpr
          refine ⟨ni, hi2, nj, hj2, ?_, hss, rfl⟩
          rw [lookup_id hi, lookup_id hj]
          exact hlt
        · left
          rw [lookup_id hi, lookup_id hj]
      · have hlt : j < i := Nat.lt_of_le_of_ne hge (Ne.symm hij)
        apply mem_buildAdj.mpr
        refine ⟨⟨nj.id, ni.id, nj.sae_indices ∩ ni.sae_indices⟩, ?_, ?_⟩
        · apply mem_specIntersectionEdges.mpr
          refine ⟨nj, hj2, ni, hi2, ?_, by rwa [Finset.inter_comm], rfl⟩
          rw [lookup_id hi, lookup_id hj]
          exact hlt
        · right
          rw [lookup_id hi, lookup_id hj]

/-! ## Per-node internal consistency -/

/-- A node is internally consistent: the metadata list carries exactly one
entry per covered index, and the count equals the number of covered
indices. -/
def NodeWf (x : NodeData) : Prop :=
  (x.saes.map (·.index)).Nodup ∧
    (x.saes.map (·.index)).toFinset = x.sae_indices ∧
    x.sae_count = x.sae_indices.card

theorem mergeSaes_cons (tgt : List Sae) (s : Sae) (rest : List Sae) :
    mergeSaes tgt (s :: rest) =
      mergeSaes
        (if tgt.any (fun s2 => s2.index = s.index) then tgt else tgt ++ [s])
        rest := rfl

theorem mergeSaes_index_nodup {src : List Sae} :
    ∀ {tgt : List Sae}, (tgt.map (·.index)).Nodup →
    ((mergeSaes tgt src).map (·.index)).Nodup := by
  induction src with
  | nil => exact fun h => h
  | cons s rest ih =>
    intro tgt h
    rw [mergeSaes_cons]
    by_cases hany : tgt.any (fun s2 => s2.index = s.index)
    · rw [if_pos hany]
      exact ih h
    · rw [if_neg hany]
      apply ih
      rw [List.map_append]
      apply List.Nodup.append h (List.nodup_singleton _)
      intro a ha hb
      have ha2 : a = s.index := by simpa using hb
      subst ha2
      obtain ⟨s2, hs2, he⟩ := List.mem_map.mp ha
      have := List.any_eq_false.mp (Bool.not_eq_true _ ▸ hany) s2 hs2
      simp only [decide_eq_true_eq] at this
      exact this he

theorem mergeSaes_index_toFinset {src : List Sae} :
    ∀ tgt : List Sae,
    ((mergeSaes tgt src).map (·.index)).toFinset =
      (tgt.map (·.index)).toFinset ∪ (src.map (·.index)).toFinset := by
  induction src with
  | nil => intro tgt; simp [mergeSaes]
  | cons s rest ih =>
    intro tgt
    rw [mergeSaes_cons]
    by_cases hany : tgt.any (fun s2 => s2.index = s.index)
    · rw [if_pos hany, ih]
      obtain ⟨s2, hs2, he⟩ := List.any_eq_true.mp hany
      simp only [decide_eq_true_eq] at he
      have hmem : s.index ∈ (tgt.map (·.index)).toFinset := by
        rw [List.mem_toFinset]
        exact he ▸ List.mem_map_of_mem _ hs2
      rw [List.map_cons, List.toFinset_cons, Finset.union_insert,
        Finset.insert_eq_self.mpr (Finset.mem_union_left _ hmem)]
    · rw [if_neg hany, ih]
      rw [List.map_append, List.toFinset_append, List.map_cons, List.toFinset_cons]
      simp only [List.map_nil, List.toFinset_cons, List.toFinset_nil]
      rw [Finset.union_assoc]
      congr 1
      simp [Finset.insert_eq]

theorem updFun_nodeWf {nd td : NodeData} {t : Nat}
    (hnd : NodeWf nd) (htd : NodeWf td) {x : NodeData} (hx : NodeWf x) :
    NodeWf (updFun nd td t x) := by
  unfold updFun
  split
  · refine ⟨mergeSaes_index_nodup htd.1, ?_, rfl⟩
    rw [mergeSaes_index_toFinset, htd.2.1, hnd.2.1]
  · exact hx

theorem applyMerge_nodeWf {st : NodeDict × Adj} {p : Nat × Nat}
    (h : ∀ x ∈ st.1, NodeWf x) : ∀ x ∈ (applyMerge st p).1, NodeWf x := by
  rcases st with ⟨d, A⟩
  rcases p with ⟨n, t⟩
  rcases hln : lookup d n with _ | nd
  · rw [applyMerge_skip (Or.inl hln)]
    exact h
  rcases hlt : lookup d t with _ | td
  · rw [applyMerge_skip (Or.inr hlt)]
    exact h
  rw [applyMerge_perform hln hlt]
  intro x hx
  obtain ⟨hx1, -⟩ := List.mem_filter.mp hx
  obtain ⟨y, hy, rfl⟩ := List.mem_map.mp hx1
  exact updFun_nodeWf (h nd (mem_of_lookup hln)) (h td (mem_of_lookup hlt)) (h y hy)

theorem foldl_merge_nodeWf {ms : List (Nat × Nat)} :
    ∀ {st : NodeDict × Adj}, (∀ x ∈ st.1, NodeWf x) →
    ∀ x ∈ (ms.foldl applyMerge st).1, NodeWf x := by
  induction ms with
  | nil => exact fun h => h
  | cons p ps ih =>
    intro st h
    simp only [List.foldl_cons]
    exact ih (applyMerge_nodeWf h)

theorem mergePasses_nodeWf {fuel : Nat} :
    ∀ {d : NodeDict} {A : Adj}, (∀ x ∈ d, NodeWf x) →
    ∀ x ∈ (mergePasses fuel d A).1, NodeWf x := by
  induction fuel with
  | zero => exact fun h => h
  | succ f ih =>
    intro d A h
    simp only [mergePasses]
    by_cases hms : (collectMerges d A).isEmpty
    · rw [if_pos hms]
      exact h
    · rw [if_neg hms]
      exact ih (foldl_merge_nodeWf h)

/-! ## Properties of the modelled greedy ball cover -/

theorem coverPts_mem {D : List (List Q)} {eps : Q} {M : Int}
    {counts : List Nat} {lm p : Nat} (hp : p ∈ coverPts D eps M counts lm) :
    p < counts.length := by
  have := (List.mem_filter.mp hp).1
  simpa using List.mem_range.mp this

theorem coverPts_nodup (D : List (List Q)) (eps : Q) (M : Int)
    (counts : List Nat) (lm : Nat) : (coverPts D eps M counts lm).Nodup :=
  (List.nodup_range _).filter _

theorem bumpCounts_length (counts : List Nat) (pts : List Nat) :
    (bumpCounts counts pts).length = counts.length := by
  simp [bumpCounts]

theorem ballCoverAux_succ (D : List (List Q)) (eps : Q) (M : Int)
    (f : Nat) (counts : List Nat) :
    ballCoverAux D eps M (f + 1) counts =
      match counts.findIdx? (· = 0) with
      | none => []
      | some lm =>
        if lm ∈ coverPts D eps M counts lm then
          (lm, coverPts D eps M counts lm) ::
            ballCoverAux D eps M f (bumpCounts counts (coverPts D eps M counts lm))
        else [] := rfl

theorem ballCoverAux_pts {D : List (List Q)} {eps : Q} {M : Int} :
    ∀ {fuel : Nat} {counts : List Nat} {lm : Nat} {pts : List Nat},
    (lm, pts) ∈ ballCoverAux D eps M fuel counts →
    pts.Nodup ∧ ∀ p ∈ pts, p < counts.length := by
  intro fuel
  induction fuel with
  | zero => intro counts lm pts h; cases h
  | succ f ih =>
    intro counts lm pts h
    rw [ballCoverAux_succ] at h
    rcases hfind : counts.findIdx? (· = 0) with _ | l
    · rw [hfind] at h
      cases h
    · rw [hfind] at h
      simp only at h
      by_cases hl : l ∈ coverPts D eps M counts l
      · rw [if_pos hl] at h
        rcases List.mem_cons.mp h with he | hrest
        · injection he with h1 h2
          subst h1
          subst h2
          exact ⟨coverPts_nodup .., fun p hp => coverPts_mem hp⟩
        · have := ih hrest
          rwa [bumpCounts_length] at this
      · rw [if_neg hl] at h
        cases h

theorem ballCover_pts {D : List (List Q)} {eps : Q} {M : Int}
    {lm : Nat} {pts : List Nat} (h : (lm, pts) ∈ ballCover D eps M) :
    pts.Nodup ∧ ∀ p ∈ pts, p < D.length := by
  have := ballCoverAux_pts h
  rwa [List.length_replicate] at this

theorem buildNodes_nodeWf {recs : List PointRec}
    (hrec : (recs.map (·.index)).Nodup)
    {mnodes : List (Nat × List Nat)}
    (hmn : ∀ q ∈ mnodes, q.2.Nodup ∧ ∀ p ∈ q.2, p < recs.length) :
    ∀ x ∈ buildNodes mnodes recs, NodeWf x := by
  intro x hx
  obtain ⟨⟨lm, pts⟩, hq, rfl⟩ := List.mem_map.mp hx
  obtain ⟨hnd, hbd⟩ := hmn _ hq
  have hmap : (pts.map (fun p => (recs.getD p defaultRec).index)).Nodup := by
    apply List.Nodup.map_on ?_ hnd
    intro p hp q hq2 he
    have hpb := hbd p hp
    have hqb := hbd q hq2
    have hp2 : (recs.getD p defaultRec).index = (recs.map (·.index)).get ⟨p, by simpa⟩ := by
      rw [List.getD_eq_getElem recs defaultRec hpb]
      simp
    have hq3 : (recs.getD q defaultRec).index = (recs.map (·.index)).get ⟨q, by simpa⟩ := by
      rw [List.getD_eq_getElem recs defaultRec hqb]
      simp
    rw [hp2, hq3] at he
    have := List.Nodup.get_inj_iff hrec |>.mp he
    simpa using this
  have hsaes : (((pts.map (fun p =>
      (⟨(recs.getD p defaultRec).index, (recs.getD p defaultRec).info⟩ : Sae))).map
        (·.index))) = pts.map (fun p => (recs.getD p defaultRec).index) := by
    rw [List.map_map]
    rfl
  refine ⟨?_, ?_, ?_⟩
  · simp only [buildNodes]
    rw [hsaes]
    exact hmap
  · simp only [buildNodes]
    rw [hsaes]
  · simp only [buildNodes]
    rw [List.toFinset_card_of_nodup hmap, List.length_map]

/-! ## From the request core to the simplifier -/

theorem compute_matrix_length {embs : List (List Q)} {D : List (List Q)}
    (h : compute_cosine_distance_matrix embs = .ok D) :
    D.length = embs.length := by
  simp only [compute_cosine_distance_matrix] at h
  by_cases he : embs.isEmpty
  · rw [if_pos he] at h
    cases h
  · rw [if_neg he] at h
    obtain rfl := (Except.ok.inj h).symm
    simp

theorem postprocess_nodes_eq {nodes : List NodeData} {edges : Finset Edge}
    {pn : List NodeData} {pe : Finset Edge}
    (h : postprocess_ballmapper nodes edges = some (pn, pe)) :
    pn = (mergePasses (nodes.length + 1) nodes (buildAdj edges)).1 := by
  simp only [postprocess_ballmapper] at h
  rcases hbe : buildFinalEdges (mergePasses (nodes.length + 1) nodes (buildAdj edges)).1
      (mergePasses (nodes.length + 1) nodes (buildAdj edges)).2 with _ | es
  · rw [hbe] at h
    cases h
  · rw [hbe] at h
    have := Option.some.inj h
    exact (congrArg Prod.fst this).symm

/-- Everything the merge machinery guarantees about a successful run of
the simplifier on an invariant-satisfying raw graph. -/
theorem postprocess_spec {nodes : List NodeData} {edges : Finset Edge}
    (hInv : Inv nodes (buildAdj edges)) {pn : List NodeData} {pe : Finset Edge}
    (h : postprocess_ballmapper nodes edges = some (pn, pe)) :
    Inv pn (mergePasses (nodes.length + 1) nodes (buildAdj edges)).2 ∧
      Reach nodes pn ∧
      collectMerges pn (mergePasses (nodes.length + 1) nodes (buildAdj edges)).2 = [] ∧
      pe = specIntersectionEdges pn := by
  have hpn := postprocess_nodes_eq h
  simp only [postprocess_ballmapper] at h
  rcases hbe : buildFinalEdges (mergePasses (nodes.length + 1) nodes (buildAdj edges)).1
      (mergePasses (nodes.length + 1) nodes (buildAdj edges)).2 with _ | es
  · rw [hbe] at h
    cases h
  · rw [hbe] at h
    have hpair := Option.some.inj h
    have hpe : es = pe := congrArg Prod.snd hpair
    subst hpe
    subst hpn
    have hI2 := @mergePasses_inv (nodes.length + 1) nodes (buildAdj edges) hInv
    have hfix := @mergePasses_fix (nodes.length + 1) nodes (buildAdj edges) (by omega)
    exact ⟨hI2.1, hI2.2, hfix, buildFinal_eq_spec hI2.1 hbe⟩

theorem buildAdj_spec_live {ns : List NodeData} (hnd : IdsNodup ns)
    {p : Nat × Nat} (hp : p ∈ buildAdj (specIntersectionEdges ns)) :
    (lookup ns p.1).isSome ∧ (lookup ns p.2).isSome := by
  rcases mem_buildAdj.mp hp with ⟨e, he, hor⟩
  obtain ⟨a, ha, b, hb, hlt, hss, rfl⟩ := mem_specIntersectionEdges.mp he
  have hla := lookup_eq_self hnd ha
  have hlb := lookup_eq_self hnd hb
  rcases hor with rfl | rfl <;> dsimp only <;>
    simp [hla, hlb]

/-- One more merging lemma: a pass that schedules nothing leaves the
state untouched. -/
theorem mergePasses_of_empty {d : NodeDict} {A : Adj} {fuel : Nat}
    (h : collectMerges d A = []) : mergePasses (fuel + 1) d A = (d, A) := by
  simp only [mergePasses]
  rw [if_pos (by rw [h]; rfl)]

deriving instance DecidableEq for Except

/-! ## Concrete inputs for the claims -/

/-- Two nodes where the higher id's covered set is contained in the lower
id's: merging node 1 into node 0 leaves the stale entry `1 ∈ adjacency[0]`
and the final edge reconstruction fails. -/
def cn1 : List NodeData := [⟨0, [], {5, 6}, 2⟩, ⟨1, [], {5}, 1⟩]

/-- A two-node graph with an edge and no containment: simplification
succeeds and changes nothing. -/
def cn2 : List NodeData := [⟨0, [], {1, 2}, 2⟩, ⟨1, [], {2, 3}, 2⟩]

/-- Two nodes with equal covered sets, inserted with the higher id first:
the code's insertion-order scan merges node 2 into node 1 (and then fails
on the stale entry), while the ascending-order algorithm of the claim
merges node 1 into node 2 and succeeds. -/
def cn6 : List NodeData := [⟨2, [], {1, 2}, 2⟩, ⟨1, [], {1, 2}, 2⟩]

/-- Like `cn1` but with the containing node carrying the higher id, the
orientation on which the code succeeds: node 1 is merged into node 2. -/
def cn8 : List NodeData := [⟨1, [], {5}, 1⟩, ⟨2, [], {5, 6}, 2⟩]

/-- Input for the termination witness. -/
def cn9 : List NodeData := [⟨3, [], {7}, 1⟩, ⟨4, [], {7, 8}, 2⟩]

/-- Three pairwise-orthogonal unit vectors with SAE indices 10, 11, 12. -/
def recs3 : List PointRec :=
  [⟨10, 0, [1, 0, 0]⟩, ⟨11, 1, [0, 1, 0]⟩, ⟨12, 2, [0, 0, 1]⟩]

/-- A single input point, for the radius-override failure. -/
def rec1 : PointRec := ⟨7, 0, [1, 0]⟩

/-- The payload `get_ballmapper_core` returns on `recs3` with an explicit
radius override of `0`: three singleton balls and no edges. -/
def r0 : BMResult :=
  { nodes := [⟨0, [⟨10, 0⟩], {10}, 1⟩, ⟨1, [⟨11, 1⟩], {11}, 1⟩, ⟨2, [⟨12, 2⟩], {12}, 1⟩],
    edges := ∅,
    total_saes := 3,
    original_nodes := 3,
    original_edges := 0,
    computed_epsilon := none,
    used_epsilon := 0 }

/-! ## The claims -/

/-- C1 (code_bug evaluation): on the well-formed raw graph `cn1` — node 0
covering `{5, 6}`, node 1 covering `{5}`, one edge between them — the
simplifier does **not** complete: merging node 1 into node 0 leaves the
removed id 1 in `adjacency[0]`, and the final edge reconstruction looks
up `node_dict[1]`, raising `KeyError` (the `none` result).  This refutes
"no merge, adjacency rewiring, or final edge reconstruction step can
raise an error". -/
theorem C1_simplifier_fails_on_wellformed_input :
    postprocess_ballmapper cn1 (makeEdges cn1) = none := by decide

/-- C2: in a successfully returned simplified graph, the edge set is
exactly the set of pairwise covered-set intersections of the surviving
nodes — every edge joins two surviving nodes with a non-empty shared set
(carried as `common_saes`), and every intersecting surviving pair has
exactly one edge. -/
theorem C2_final_edges_are_pairwise_intersections :
    ∀ (nodes : List NodeData), IdsNodup nodes →
    ∀ pn pe, postprocess_ballmapper nodes (makeEdges nodes) = some (pn, pe) →
    pe = specIntersectionEdges pn := by
  intro nodes hnd pn pe h
  exact (postprocess_spec (inv_makeEdges hnd) h).2.2.2

/-- C2 witness at `cn2`. -/
theorem C2_witness :
    IdsNodup cn2 ∧
      postprocess_ballmapper cn2 (makeEdges cn2) = some (cn2, {⟨0, 1, {2}⟩}) ∧
      ({⟨0, 1, {2}⟩} : Finset Edge) = specIntersectionEdges cn2 :=
  ⟨by show (cn2.map (·.id)).Nodup; decide, by decide,
    C2_final_edges_are_pairwise_intersections cn2
      (by show (cn2.map (·.id)).Nodup; decide) cn2 {⟨0, 1, {2}⟩} (by decide)⟩

/-- C3 (counterexample): a request with radius override `0` and overlap
cap `0` returns a graph (three singleton balls on `recs3`), not an
`InvalidParameter` error — refuting "a request with radius = 0 yields
InvalidParameter, not a graph". -/
theorem C3_counterexample_radius_zero_yields_graph :
    get_ballmapper_core recs3 recs3 (some 0) (some 0) = .ok r0 ∧
      get_ballmapper_core recs3 recs3 (some 0) (some 0) ≠
        .error .invalidParameter := by
  constructor
  · decide
  · decide

/-- C3 (amended): the code validates neither parameter: an overlap cap
below 1 is silently clamped to 1 (an absent cap defaults to 3), and an
explicit radius override — including 0 — is used as-is, producing a
graph. -/
theorem C3_amended_clamp_no_validation :
    (∀ m : Int, m < 1 → parse_max_size (some m) = 1) ∧
      parse_max_size none = 3 ∧
      get_ballmapper_core recs3 recs3 (some 0) (some 0) = .ok r0 := by
  refine ⟨?_, rfl, by decide⟩
  intro m hm
  simp [parse_max_size, hm]

/-- C3 witness: the clamp at cap `0`. -/
theorem C3_witness : parse_max_size (some 0) = 1 :=
  C3_amended_clamp_no_validation.1 0 (by decide)

/-- C4 (counterexample): on the zero-norm vector `[0, 0]` the distance
matrix builder returns a matrix (`ok`), not a `DegenerateVector` error —
refuting "the computation fails with a tagged error ... instead of
returning a distance matrix". -/
theorem C4_counterexample_zero_norm_returns_matrix :
    compute_cosine_distance_matrix [[0, 0]] = .ok [[1]] ∧
      compute_cosine_distance_matrix [[0, 0]] ≠ .error .degenerateVector := by
  constructor
  · decide
  · decide

/-- C4 (amended): `compute_cosine_distance_matrix` performs no
validation: it can never produce a `DegenerateVector` error; every
non-empty input — zero-norm vectors included — yields a matrix; only the
empty input fails, with the untagged error of the debug print's reduction
over the empty matrix. -/
theorem C4_amended_no_validation :
    (∀ embs : List (List Q),
      compute_cosine_distance_matrix embs ≠ .error .degenerateVector) ∧
      (∀ embs : List (List Q), embs ≠ [] →
        (compute_cosine_distance_matrix embs).isOk = true) ∧
      compute_cosine_distance_matrix [] = .error .valueError := by
  refine ⟨?_, ?_, rfl⟩
  · intro embs
    simp only [compute_cosine_distance_matrix]
    by_cases he : embs.isEmpty
    · rw [if_pos he]
      intro h
      cases h
    · rw [if_neg he]
      intro h
      cases h
  · intro embs hne
    simp only [compute_cosine_distance_matrix]
    rw [if_neg (by simpa [List.isEmpty_iff] using hne)]
    rfl

/-- C4 witness: the zero-norm input still yields `ok`. -/
theorem C4_witness : (compute_cosine_distance_matrix [[0, 0]]).isOk = true :=
  C4_amended_no_validation.2.1 [[0, 0]] (by decide)

/-- C5 (counterexample): with a single input point and an explicit radius
override of `1/2`, the whole call fails — the knee computation runs
before the override is consulted and its failure aborts the request,
refuting "the RadiusSelector is bypassed entirely ... and cannot cause
the call to fail". -/
theorem C5_counterexample_selector_failure_despite_override :
    get_ballmapper_core [rec1] [rec1] (some ⟨1, 2⟩) none =
      .error .insufficientData := by decide

/-- C5 (amended): when the call succeeds with an override, the override
is the radius actually used and the separately reported computed radius
is withheld (`none`); but the selector is not bypassed — it always runs
first, and its failure fails the call even when an override was
supplied. -/
theorem C5_amended_override_used_when_ok :
    ∀ (allRecs filteredRecs : List PointRec) (e : Q) (ms : Option Int)
      (r : BMResult),
    get_ballmapper_core allRecs filteredRecs (some e) ms = .ok r →
    r.used_epsilon = e ∧ r.computed_epsilon = none := by
  intro allRecs filteredRecs e ms r h
  simp only [get_ballmapper_core] at h
  by_cases hf : filteredRecs.isEmpty
  · rw [if_pos hf] at h
    cases h
  rw [if_neg hf] at h
  rcases hD : compute_cosine_distance_matrix (filteredRecs.map (·.vec)) with e1 | D
  · rw [hD] at h
    cases h
  rw [hD] at h
  dsimp only at h
  rcases hE : elbow_eps (allRecs.map (·.vec)) 3 with e2 | eps0
  · rw [hE] at h
    cases h
  rw [hE] at h
  dsimp only at h
  rcases hP : postprocess_ballmapper
      (buildNodes (ballCover D e (parse_max_size ms)) filteredRecs)
      (makeEdges (buildNodes (ballCover D e (parse_max_size ms)) filteredRecs))
      with _ | pr
  · rw [hP] at h
    cases h
  · rw [hP] at h
    obtain rfl := Except.ok.inj h
    exact ⟨rfl, rfl⟩

/-- C5 witness: on `recs3` with override `0`, the call succeeds, uses
radius 0 and reports no computed radius. -/
theorem C5_witness :
    get_ballmapper_core recs3 recs3 (some 0) none = .ok r0 ∧
      r0.used_epsilon = 0 ∧ r0.computed_epsilon = none :=
  ⟨by decide, C5_amended_override_used_when_ok recs3 recs3 0 none r0 (by decide)⟩

/-- C6 (counterexample): on `cn6` (two nodes with equal covered sets,
inserted higher id first) the code's result differs from the
ascending-NodeId, immediate-merge algorithm the claim describes: the code
scans in dictionary insertion order, merges node 2 into node 1, and then
fails on the stale adjacency entry, while the claimed algorithm merges
node 1 into node 2 and returns the surviving graph. -/
theorem C6_counterexample_scan_order :
    postprocess_ballmapper cn6 (makeEdges cn6) ≠
      some (specOrderSimplify cn6 (makeEdges cn6)) := by decide

/-- C6 (amended): the pass records merges by scanning the node dictionary
in insertion order (the raw node-list order) with all merges deferred to
the end of the pass; each recorded pair `(n, t)` is sound against the
pass-start state: `t` is a current neighbor of `n` distinct from it whose
covered set contains `n`'s.  For a fixed input the merge sequence is
deterministic, but it is not the ascending-id immediate-merge order of
the claim. -/
theorem C6_amended_pass_soundness :
    ∀ (d : NodeDict) (A : Adj), IdsNodup d → NoSelf A →
    ∀ n t, (n, t) ∈ collectMerges d A →
    ∃ nd td, lookup d n = some nd ∧ lookup d t = some td ∧
      nd.sae_indices ⊆ td.sae_indices ∧ (n, t) ∈ A ∧ n ≠ t := by
  intro d A hnd hns n t h
  obtain ⟨⟨nd, td, h1, h2, h3, h4⟩, h5⟩ := collectMerges_sound hnd hns h
  exact ⟨nd, td, h1, h2, h3, h5, h4⟩

/-- C6 witness at `cn1`'s graph: the pass records the pair `(1, 0)`. -/
theorem C6_witness :
    IdsNodup cn1 ∧ NoSelf (buildAdj (makeEdges cn1)) ∧
      (1, 0) ∈ collectMerges cn1 (buildAdj (makeEdges cn1)) ∧
      ∃ nd td, lookup cn1 1 = some nd ∧ lookup cn1 0 = some td ∧
        nd.sae_indices ⊆ td.sae_indices ∧
        (1, 0) ∈ buildAdj (makeEdges cn1) ∧ (1 : Nat) ≠ 0 := by
  have hnd : IdsNodup cn1 := by
    show (cn1.map (·.id)).Nodup
    decide
  refine ⟨hnd, (inv_makeEdges hnd).noSelf, by decide, ?_⟩
  exact C6_amended_pass_soundness cn1 (buildAdj (makeEdges cn1)) hnd
    (inv_makeEdges hnd).noSelf 1 0 (by decide)

/-- C7: the simplifier is idempotent on the graphs it returns: re-running
it on its own successful output schedules zero merges and reproduces the
same nodes and the same edge set. -/
theorem C7_idempotent :
    ∀ (nodes : List NodeData), IdsNodup nodes →
    ∀ pn pe, postprocess_ballmapper nodes (makeEdges nodes) = some (pn, pe) →
    collectMerges pn (buildAdj pe) = [] ∧
      postprocess_ballmapper pn pe = some (pn, pe) := by
  intro nodes hnd pn pe h
  obtain ⟨hI, hR, hfix, hpe⟩ := postprocess_spec (inv_makeEdges hnd) h
  subst hpe
  have hI2 : Inv pn (buildAdj (specIntersectionEdges pn)) := inv_specEdges hI.nodup
  have hcol : collectMerges pn (buildAdj (specIntersectionEdges pn)) = [] := by
    rw [collectMerges_eq_nil_iff]
    intro nd hnd2 j hj hsup
    obtain ⟨-, hjs⟩ := buildAdj_spec_live hI.nodup hj
    rcases hlj : lookup pn j with _ | nj
    · rw [hlj] at hjs
      cases hjs
    have hnd3 := lookup_eq_self hI.nodup hnd2
    have hadj := (hI2.adjInv nd.id j nd nj hnd3 hlj).mp hj
    have hA := (hI.adjInv nd.id j nd nj hnd3 hlj).mpr hadj
    exact collectMerges_eq_nil_iff.mp hfix nd hnd2 j hA hsup
  refine ⟨hcol, ?_⟩
  have hlive : ∀ p ∈ buildAdj (specIntersectionEdges pn),
      (lookup pn p.1).isSome ∧ (lookup pn p.2).isSome :=
    fun p hp => buildAdj_spec_live hI.nodup hp
  have hsome := buildFinal_some hlive
  have hbe2 : buildFinalEdges pn (buildAdj (specIntersectionEdges pn)) =
      some (specIntersectionEdges pn) := by
    rcases hbe : buildFinalEdges pn (buildAdj (specIntersectionEdges pn)) with _ | es2
    · rw [hbe] at hsome
      cases hsome
    · rw [buildFinal_eq_spec hI2 hbe]
  simp only [postprocess_ballmapper, mergePasses_of_empty hcol, hbe2]

/-- C7 witness at `cn2`. -/
theorem C7_witness :
    IdsNodup cn2 ∧
      postprocess_ballmapper cn2 (makeEdges cn2) = some (cn2, {⟨0, 1, {2}⟩}) ∧
      collectMerges cn2 (buildAdj ({⟨0, 1, {2}⟩} : Finset Edge)) = [] ∧
      postprocess_ballmapper cn2 {⟨0, 1, {2}⟩} = some (cn2, {⟨0, 1, {2}⟩}) := by
  have hnd : IdsNodup cn2 := by
    show (cn2.map (·.id)).Nodup
    decide
  have h1 : postprocess_ballmapper cn2 (makeEdges cn2) =
      some (cn2, {⟨0, 1, {2}⟩}) := by decide
  have h2 := C7_idempotent cn2 hnd cn2 {⟨0, 1, {2}⟩} h1
  exact ⟨hnd, h1, h2.1, h2.2⟩

/-- C8: on a successful run, the union of the covered-point sets of the
simplified graph's nodes equals the union over the raw graph's nodes —
every merge moves the removed node's points into the surviving neighbor
(whose set already contains them) and no point is dropped or added. -/
theorem C8_total_coverage_preserved :
    ∀ (nodes : List NodeData), IdsNodup nodes →
    ∀ pn pe, postprocess_ballmapper nodes (makeEdges nodes) = some (pn, pe) →
    unionIndices pn = unionIndices nodes := by
  intro nodes hnd pn pe h
  exact ((postprocess_spec (inv_makeEdges hnd) h).2.1).uni

/-- C8 witness at `cn8`: node 1 (covering `{5}`) is merged into node 2
(covering `{5, 6}`) and the union `{5, 6}` is preserved. -/
theorem C8_witness :
    IdsNodup cn8 ∧
      postprocess_ballmapper cn8 (makeEdges cn8) =
        some ([⟨2, [], {6, 5}, 2⟩], ∅) ∧
      unionIndices [⟨2, [], {6, 5}, 2⟩] = unionIndices cn8 := by
  have hnd : IdsNodup cn8 := by
    show (cn8.map (·.id)).Nodup
    decide
  have h1 : postprocess_ballmapper cn8 (makeEdges cn8) =
      some ([⟨2, [], {6, 5}, 2⟩], ∅) := by rfl
  exact ⟨hnd, h1,
    C8_total_coverage_preserved cn8 hnd [⟨2, [], {6, 5}, 2⟩] ∅ h1⟩

/-- C9: the merge loop terminates: a pass that records at least one merge
strictly decreases the number of live nodes, and with `length + 1` passes
the fixpoint is reached — the final state schedules zero merges. -/
theorem C9_merge_loop_terminates :
    (∀ (d : NodeDict) (A : Adj), collectMerges d A ≠ [] →
      ((collectMerges d A).foldl applyMerge (d, A)).1.length < d.length) ∧
    (∀ (d : NodeDict) (A : Adj),
      collectMerges (mergePasses (d.length + 1) d A).1
        (mergePasses (d.length + 1) d A).2 = []) :=
  ⟨fun _ _ h => pass_length_lt h, fun d A => mergePasses_fix (by omega)⟩

/-- C9 witness at `cn9`. -/
theorem C9_witness :
    collectMerges cn9 (buildAdj (makeEdges cn9)) ≠ [] ∧
      ((collectMerges cn9 (buildAdj (makeEdges cn9))).foldl applyMerge
        (cn9, buildAdj (makeEdges cn9))).1.length < cn9.length ∧
      collectMerges (mergePasses (cn9.length + 1) cn9 (buildAdj (makeEdges cn9))).1
        (mergePasses (cn9.length + 1) cn9 (buildAdj (makeEdges cn9))).2 = [] :=
  ⟨by decide, C9_merge_loop_terminates.1 cn9 (buildAdj (makeEdges cn9)) (by decide),
    C9_merge_loop_terminates.2 cn9 (buildAdj (makeEdges cn9))⟩

/-- C10: every node of a graph returned by the pipeline is internally
consistent: `sae_count` equals the number of distinct covered indices,
the covered-index set carries no duplicates, and the metadata list
carries exactly one entry per covered index (merging dedups by index). -/
theorem C10_pipeline_nodes_consistent :
    ∀ (allRecs filteredRecs : List PointRec) (ce : Option Q) (ms : Option Int)
      (r : BMResult),
    (filteredRecs.map (·.index)).Nodup →
    get_ballmapper_core allRecs filteredRecs ce ms = .ok r →
    ∀ x ∈ r.nodes, NodeWf x := by
  intro allRecs filteredRecs ce ms r hrec h
  simp only [get_ballmapper_core] at h
  by_cases hf : filteredRecs.isEmpty
  · rw [if_pos hf] at h
    cases h
  rw [if_neg hf] at h
  rcases hD : compute_cosine_distance_matrix (filteredRecs.map (·.vec)) with e1 | D
  · rw [hD] at h
    cases h
  rw [hD] at h
  dsimp only at h
  rcases hE : elbow_eps (allRecs.map (·.vec)) 3 with e2 | eps0
  · rw [hE] at h
    cases h
  rw [hE] at h
  dsimp only at h
  set eps := match ce with
    | some e => e
    | none => eps0.1 with heps
  rcases hP : postprocess_ballmapper
      (buildNodes (ballCover D eps (parse_max_size ms)) filteredRecs)
      (makeEdges (buildNodes (ballCover D eps (parse_max_size ms)) filteredRecs))
      with _ | pr
  · rw [hP] at h
    cases h
  rw [hP] at h
  obtain rfl := Except.ok.inj h
  rcases pr with ⟨pn, pe⟩
  intro x hx
  have hDlen : D.length = filteredRecs.length := by
    rw [compute_matrix_length hD, List.length_map]
  have hraw : ∀ y ∈ buildNodes (ballCover D eps (parse_max_size ms)) filteredRecs,
      NodeWf y := by
    apply buildNodes_nodeWf hrec
    intro q hq
    rcases q with ⟨lm, pts⟩
    have := ballCover_pts hq
    exact ⟨this.1, fun p hp => hDlen ▸ this.2 p hp⟩
  have hpn := postprocess_nodes_eq hP
  subst hpn
  exact mergePasses_nodeWf hraw x hx

/-- C10 witness on the `recs3` pipeline run. -/
theorem C10_witness :
    (recs3.map (·.index)).Nodup ∧
      get_ballmapper_core recs3 recs3 (some 0) none = .ok r0 ∧
      NodeWf ⟨0, [⟨10, 0⟩], {10}, 1⟩ :=
  ⟨by decide, by decide,
    C10_pipeline_nodes_consistent recs3 recs3 (some 0) none r0 (by decide)
      (by decide) ⟨0, [⟨10, 0⟩], {10}, 1⟩ (by decide)⟩

end SAEExploration
